import Mathlib

/-!
Shallow embedding of `src/lru_timeout_cache.py` (class `LRUTimeoutCache`).

The Python class stores an `OrderedDict` mapping keys to mutable dicts
`{"timer": TimerHandle | None, "data": value}` and uses an asyncio event
loop's `call_later` / `TimerHandle.cancel` to implement per-entry idle
timeouts.  We model:

  * Python values stored in (or returned from) the cache as `PyVal`;
    `PyVal.none` is Python's `None`, which is both the miss signal of
    `get_item` and the implicit return of `put_item` when nothing is
    evicted — and is itself a storable value;
  * the event loop as a virtual clock plus a monotonically growing list of
    `Timer` records; a handle is the index of the timer in that list;
    `call_later` appends a fresh record, `cancel` sets its `cancelled`
    flag (idempotent, as for `asyncio.TimerHandle.cancel`), and firing
    sets its `fired` flag;
  * the `OrderedDict` as an association list, front = least recently
    used, back = most recently used (`popitem(last=False)` pops the
    front, `popitem(last=True)` pops the back, `move_to_end` moves an
    existing key to the back, plain assignment to an existing key keeps
    its position);
  * advancing the virtual clock to `t` runs every not-cancelled,
    not-fired callback whose scheduled time is `≤ t`, in
    (scheduled-time, insertion-order) order, matching the loop's
    ready-queue ordering;
  * operations that the Python code lets raise are `Option`-valued:
    `pop_item` on an empty dict (`KeyError` from `popitem`) and
    `_delete_outdated` on an absent key (`KeyError` from `del`).
-/

inductive PyVal where
  | none
  | str (s : String)
  | int (n : Int)
deriving DecidableEq, Repr

structure Timer where
  fireTime : Nat
  key : String
  cancelled : Bool
  fired : Bool
deriving DecidableEq, Repr

/-- A timer is live when it has neither been cancelled nor fired yet. -/
def Timer.live (t : Timer) : Bool := !t.cancelled && !t.fired

structure EventLoop where
  now : Nat
  timers : List Timer
deriving DecidableEq, Repr

/-- Index lookup into the timer list (handle resolution). -/
def timerAt : List Timer → Nat → Option Timer
  | [], _ => Option.none
  | tm :: _, 0 => some tm
  | _ :: rest, n + 1 => timerAt rest n

/-- Mark the timer at index `h` as cancelled (`TimerHandle.cancel`);
out-of-range indices are a no-op. -/
def setCancelled : List Timer → Nat → List Timer
  | [], _ => []
  | tm :: rest, 0 => { tm with cancelled := true } :: rest
  | tm :: rest, n + 1 => tm :: setCancelled rest n

/-- Mark the timer at index `h` as fired (the loop has run its callback). -/
def setFired : List Timer → Nat → List Timer
  | [], _ => []
  | tm :: rest, 0 => { tm with fired := true } :: rest
  | tm :: rest, n + 1 => tm :: setFired rest n

/-- `loop.call_later(delay, cb, key)`: append a fresh timer scheduled at
`now + delay` and return its handle (its index). -/
def EventLoop.callLater (loop : EventLoop) (delay : Nat) (k : String) :
    EventLoop × Nat :=
  ({ loop with timers := loop.timers ++ [⟨loop.now + delay, k, false, false⟩] },
   loop.timers.length)

def EventLoop.cancel (loop : EventLoop) (h : Nat) : EventLoop :=
  { loop with timers := setCancelled loop.timers h }

/-- Cancel an optional handle, list form. -/
def setCancelledOpt (ts : List Timer) : Option Nat → List Timer
  | some h => setCancelled ts h
  | Option.none => ts

/-- Cancel an optional handle.  In the source the replacement, eviction
and pop paths call `.cancel()` on the stored handle unconditionally; a
`None` there would raise `AttributeError`, but every entry that sits in
the cache holds a real handle (see `inv_reachable`). -/
def cancelOpt (loop : EventLoop) (o : Option Nat) : EventLoop :=
  { loop with timers := setCancelledOpt loop.timers o }

/-- One `{"timer": ..., "data": ...}` dict of the Python cache. -/
structure CacheItem where
  timer : Option Nat
  data : PyVal
deriving DecidableEq, Repr

structure LRUTimeoutCache where
  loop : EventLoop
  cache : List (String × CacheItem)
  maxSize : Int
  timeout : Nat
deriving DecidableEq, Repr

/-- `LRUTimeoutCache(size, timeout)`: fresh event loop, empty dict.  No
validation of `size` happens in `__init__`. -/
def mkCache (size : Int) (timeout : Nat) : LRUTimeoutCache :=
  ⟨⟨0, []⟩, [], size, timeout⟩

/-- `key in self.cache`. -/
def containsKey (l : List (String × CacheItem)) (k : String) : Bool :=
  l.any (fun p => p.1 == k)

/-- `self.cache[key]` as a total lookup. -/
def lookupItem : List (String × CacheItem) → String → Option CacheItem
  | [], _ => Option.none
  | p :: ps, k => if p.1 == k then some p.2 else lookupItem ps k

/-- Remove the (first) binding of `k`; identity when `k` is absent. -/
def eraseKey : List (String × CacheItem) → String → List (String × CacheItem)
  | [], _ => []
  | p :: ps, k => if p.1 == k then ps else p :: eraseKey ps k

/-- `self.cache[key] = it`: replace in place when present (an
`OrderedDict` assignment keeps the position), append otherwise. -/
def setEntry : List (String × CacheItem) → String → CacheItem →
    List (String × CacheItem)
  | [], k, it => [(k, it)]
  | p :: ps, k, it => if p.1 == k then (k, it) :: ps else p :: setEntry ps k it

/-- `self.cache.move_to_end(key)`. -/
def moveToEnd (l : List (String × CacheItem)) (k : String) :
    List (String × CacheItem) :=
  match lookupItem l k with
  | Option.none => l
  | some it => eraseKey l k ++ [(k, it)]

/-- `get_all(self)`: returns the internal ordered dict itself. -/
def LRUTimeoutCache.get_all (c : LRUTimeoutCache) :
    List (String × CacheItem) := c.cache

/-- `has_item(self, key)`. -/
def LRUTimeoutCache.has_item (c : LRUTimeoutCache) (k : String) : Bool :=
  containsKey c.cache k

/-- `_update_timer(self, item, key)`: cancel the item's timer when it has
one, then schedule `_delete_outdated(key)` after `self.timeout`. -/
def LRUTimeoutCache.update_timer (c : LRUTimeoutCache) (it : CacheItem)
    (k : String) : LRUTimeoutCache × CacheItem :=
  let loop1 :=
    match it.timer with
    | some h => c.loop.cancel h
    | Option.none => c.loop
  let r := loop1.callLater c.timeout k
  ({ c with loop := r.1 }, { it with timer := some r.2 })

/-- `get_item(self, key)`: `None` on a miss; on a hit, move the entry to
the most-recently-used end, reset its timer, and return its data. -/
def LRUTimeoutCache.get_item (c : LRUTimeoutCache) (k : String) :
    LRUTimeoutCache × PyVal :=
  match lookupItem c.cache k with
  | Option.none => (c, PyVal.none)
  | some it =>
    let c1 := { c with cache := moveToEnd c.cache k }
    let r := c1.update_timer it k
    ({ r.1 with cache := setEntry r.1.cache k r.2 }, r.2.data)

/-- `put_item(self, key, item)`: cancel the timer of an existing entry,
build a fresh entry, arm its timer, write it at the most-recently-used
end, and when `len(self.cache) > self.maxSize` pop the least-recently-
used entry, cancel its timer and return its data (`None` otherwise). -/
def LRUTimeoutCache.put_item (c : LRUTimeoutCache) (k : String) (v : PyVal) :
    LRUTimeoutCache × PyVal :=
  let c0 :=
    match lookupItem c.cache k with
    | some ex => { c with loop := cancelOpt c.loop ex.timer }
    | Option.none => c
  let r := c0.update_timer ⟨Option.none, v⟩ k
  let c1 := { r.1 with cache := moveToEnd (setEntry r.1.cache k r.2) k }
  if (c1.cache.length : Int) > c1.maxSize then
    match c1.cache with
    | [] => (c1, PyVal.none)
    | victim :: rest =>
      ({ c1 with loop := cancelOpt c1.loop victim.2.timer, cache := rest },
       victim.2.data)
  else
    (c1, PyVal.none)

/-- `_delete_outdated(self, key)`: `del self.cache[key]`, which raises
`KeyError` (modelled as `Option.none`) when the key is absent. -/
def LRUTimeoutCache.delete_outdated (c : LRUTimeoutCache) (k : String) :
    Option LRUTimeoutCache :=
  if containsKey c.cache k then some { c with cache := eraseKey c.cache k }
  else Option.none

/-- Pop the last (most-recently-used) binding. -/
def popLast : List (String × CacheItem) →
    Option (List (String × CacheItem) × (String × CacheItem))
  | [] => Option.none
  | [p] => some ([], p)
  | p :: q :: ps =>
    (popLast (q :: ps)).map (fun r => (p :: r.1, r.2))

/-- `pop_item(self)`: `popitem(last=True)`, cancel the popped entry's
timer, return its data; `KeyError` (modelled as `Option.none`) when the
dict is empty. -/
def LRUTimeoutCache.pop_item (c : LRUTimeoutCache) :
    Option (LRUTimeoutCache × PyVal) :=
  match popLast c.cache with
  | Option.none => Option.none
  | some (rest, p) =>
    some ({ c with loop := cancelOpt c.loop p.2.timer, cache := rest },
          p.2.data)

/-- Index and timer of the next due callback: among the live timers with
`fireTime ≤ t`, the one with the smallest `fireTime`, earliest insertion
first among ties — the loop's ready-queue order. -/
def dueIdx (t : Nat) : List Timer → Option (Nat × Timer)
  | [] => Option.none
  | tm :: rest =>
    let r := (dueIdx t rest).map (fun p => (p.1 + 1, p.2))
    if tm.live && tm.fireTime ≤ t then
      match r with
      | some p => if p.2.fireTime < tm.fireTime then some p else some (0, tm)
      | Option.none => some (0, tm)
    else r

/-- Run the due callbacks one at a time (fuel-bounded; `advanceTo` passes
enough fuel).  A fired `_delete_outdated` that raises `KeyError` is
swallowed by the loop's default exception handler (asyncio logs callback
exceptions and keeps running), leaving the cache unchanged. -/
def runDue : Nat → LRUTimeoutCache → Nat → LRUTimeoutCache
  | 0, c, _ => c
  | fuel + 1, c, t =>
    match dueIdx t c.loop.timers with
    | Option.none => c
    | some p =>
      let c1 := { c with loop := { c.loop with timers := setFired c.loop.timers p.1 } }
      match c1.delete_outdated p.2.key with
      | some c2 => runDue fuel c2 t
      | Option.none => runDue fuel c1 t

/-- Advance the virtual clock to `t`, firing every due callback. -/
def advanceTo (c : LRUTimeoutCache) (t : Nat) : LRUTimeoutCache :=
  let c1 := runDue c.loop.timers.length c t
  { c1 with loop := { c1.loop with now := t } }

/-- External interactions with one cache instance, in loop-tick order. -/
inductive CacheOp where
  | putOp (k : String) (v : PyVal)
  | getOp (k : String)
  | popOp
  | advOp (t : Nat)
deriving DecidableEq, Repr

def applyOp (c : LRUTimeoutCache) : CacheOp → LRUTimeoutCache
  | CacheOp.putOp k v => (c.put_item k v).1
  | CacheOp.getOp k => (c.get_item k).1
  | CacheOp.popOp =>
    match c.pop_item with
    | some r => r.1
    | Option.none => c
  | CacheOp.advOp t => advanceTo c t

def applyOps (c : LRUTimeoutCache) (ops : List CacheOp) : LRUTimeoutCache :=
  ops.foldl applyOp c

/-- The state reached from a fresh cache by a sequence of interactions. -/
def reachCache (m : Int) (T : Nat) (ops : List CacheOp) : LRUTimeoutCache :=
  applyOps (mkCache m T) ops

/-- Number of live timers whose callback targets key `k`. -/
def liveTimersFor : List Timer → String → Nat
  | [], _ => 0
  | tm :: rest, k =>
    (if tm.live && tm.key == k then 1 else 0) + liveTimersFor rest k

/-- The entry's stored handle resolves to a live timer keyed by the
entry's own key. -/
def entryOkB (ts : List Timer) (k : String) (it : CacheItem) : Bool :=
  match it.timer with
  | some h =>
    match timerAt ts h with
    | some tm => tm.live && tm.key == k
    | Option.none => false
  | Option.none => false

/-- The dict's keys are pairwise distinct. -/
def keysNodupB : List (String × CacheItem) → Bool
  | [] => true
  | p :: ps => !containsKey ps p.1 && keysNodupB ps

/-- Proof-friendly form of the invariant. -/
def CacheInv (c : LRUTimeoutCache) : Prop :=
  keysNodupB c.cache = true ∧
  (∀ p ∈ c.cache, entryOkB c.loop.timers p.1 p.2 = true) ∧
  (∀ k, liveTimersFor c.loop.timers k = if containsKey c.cache k then 1 else 0)

/-! ### Concrete traces used by the scenario claims -/

theorem contains_of_mem {l : List (String × CacheItem)} {k : String}
    {it : CacheItem} (h : (k, it) ∈ l) : containsKey l k = true := by
  induction l with
  | nil => cases h
  | cons p ps ih =>
    rcases List.mem_cons.mp h with h1 | h1
    · simp [containsKey, ← h1]
    · simp [containsKey, List.any_cons]
      right
      have := ih h1
      simpa [containsKey] using this

theorem lookup_eq_none_of_not_contains {l : List (String × CacheItem)}
    {k : String} (h : containsKey l k = false) :
    lookupItem l k = Option.none := by
  induction l with
  | nil => rfl
  | cons p ps ih =>
    simp [containsKey, List.any_cons] at h
    simp [lookupItem, h.1, ih (by simpa [containsKey] using h.2)]

theorem exists_lookup_of_contains {l : List (String × CacheItem)}
    {k : String} (h : containsKey l k = true) :
    ∃ it, lookupItem l k = some it := by
  induction l with
  | nil => simp [containsKey] at h
  | cons p ps ih =>
    by_cases hk : p.1 = k
    · exact ⟨p.2, by simp [lookupItem, hk]⟩
    · simp [containsKey, List.any_cons, hk] at h
      rcases ih (by simpa [containsKey] using h) with ⟨it, hit⟩
      exact ⟨it, by simpa [lookupItem, hk] using hit⟩

theorem mem_of_lookup {l : List (String × CacheItem)} {k : String}
    {it : CacheItem} (h : lookupItem l k = some it) : (k, it) ∈ l := by
  induction l with
  | nil => cases h
  | cons p ps ih =>
    by_cases hk : p.1 = k
    · simp [lookupItem, hk] at h
      subst h
      have hp : p = (k, p.2) := by
        cases p
        simp_all
      rw [hp]
      exact List.mem_cons_self _ _
    · simp [lookupItem, hk] at h
      exact List.mem_cons_of_mem _ (ih h)

theorem contains_of_lookup {l : List (String × CacheItem)} {k : String}
    {it : CacheItem} (h : lookupItem l k = some it) : containsKey l k = true :=
  contains_of_mem (mem_of_lookup h)

theorem containsKey_append (l l' : List (String × CacheItem)) (k : String) :
    containsKey (l ++ l') k = (containsKey l k || containsKey l' k) := by
  simp [containsKey, List.any_append]

theorem eraseKey_of_not_contains {l : List (String × CacheItem)} {k : String}
    (h : containsKey l k = false) : eraseKey l k = l := by
  induction l with
  | nil => rfl
  | cons p ps ih =>
    simp [containsKey, List.any_cons] at h
    simp [eraseKey, h.1, ih (by simpa [containsKey] using h.2)]

theorem length_eraseKey_of_contains {l : List (String × CacheItem)}
    {k : String} (h : containsKey l k = true) :
    (eraseKey l k).length + 1 = l.length := by
  induction l with
  | nil => simp [containsKey] at h
  | cons p ps ih =>
    by_cases hk : p.1 = k
    · simp [eraseKey, hk]
    · simp [containsKey, List.any_cons, hk] at h
      simp [eraseKey, hk, ih (by simpa [containsKey] using h)]

theorem mem_of_mem_eraseKey {l : List (String × CacheItem)} {k : String}
    {q : String × CacheItem} (h : q ∈ eraseKey l k) : q ∈ l := by
  induction l with
  | nil => cases h
  | cons p ps ih =>
    by_cases hk : p.1 = k
    · simp [eraseKey, hk] at h
      exact List.mem_cons_of_mem _ h
    · simp [eraseKey, hk] at h
      rcases h with h | h
      · exact h ▸ List.mem_cons_self _ _
      · exact List.mem_cons_of_mem _ (ih h)

theorem containsKey_eraseKey_of_ne {l : List (String × CacheItem)}
    {k k' : String} (hne : k' ≠ k) :
    containsKey (eraseKey l k) k' = containsKey l k' := by
  induction l with
  | nil => rfl
  | cons p ps ih =>
    by_cases hk : p.1 = k
    · subst hk
      simp [eraseKey, containsKey, List.any_cons, fun h : p.1 = k' => hne (h ▸ rfl)]
      intro h
      exact absurd h.symm hne
    · simp only [eraseKey, hk]
      simp only [containsKey, List.any_cons, beq_iff_eq, if_neg hk]
      have ih' : ((eraseKey ps k).any fun p => p.1 == k') =
          ps.any fun p => p.1 == k' := by
        simpa [containsKey] using ih
      rw [ih']

theorem setEntry_of_not_contains {l : List (String × CacheItem)} {k : String}
    (it : CacheItem) (h : containsKey l k = false) :
    setEntry l k it = l ++ [(k, it)] := by
  induction l with
  | nil => rfl
  | cons p ps ih =>
    simp [containsKey, List.any_cons] at h
    simp [setEntry, h.1, ih (by simpa [containsKey] using h.2)]

theorem lookupItem_setEntry_self (l : List (String × CacheItem)) (k : String)
    (it : CacheItem) : lookupItem (setEntry l k it) k = some it := by
  induction l with
  | nil => simp [setEntry, lookupItem]
  | cons p ps ih =>
    by_cases hk : p.1 = k
    · simp [setEntry, hk, lookupItem]
    · simp [setEntry, hk, lookupItem, ih]

theorem eraseKey_setEntry (l : List (String × CacheItem)) (k : String)
    (it : CacheItem) : eraseKey (setEntry l k it) k = eraseKey l k := by
  induction l with
  | nil => simp [setEntry, eraseKey]
  | cons p ps ih =>
    by_cases hk : p.1 = k
    · simp [setEntry, hk, eraseKey]
    · simp [setEntry, hk, eraseKey, ih]

theorem setEntry_append_not_contains {l : List (String × CacheItem)}
    {k : String} (it it' : CacheItem) (h : containsKey l k = false) :
    setEntry (l ++ [(k, it)]) k it' = l ++ [(k, it')] := by
  induction l with
  | nil => simp [setEntry]
  | cons p ps ih =>
    simp [containsKey, List.any_cons] at h
    simp [setEntry, h.1, ih (by simpa [containsKey] using h.2)]

theorem put_cache_normal (l : List (String × CacheItem)) (k : String)
    (it : CacheItem) :
    moveToEnd (setEntry l k it) k = eraseKey l k ++ [(k, it)] := by
  simp [moveToEnd, lookupItem_setEntry_self, eraseKey_setEntry]

/-! ### Key-distinctness lemmas -/

theorem keysNodupB_append_singleton {l : List (String × CacheItem)}
    {k : String} (it : CacheItem) (hn : keysNodupB l = true)
    (hc : containsKey l k = false) : keysNodupB (l ++ [(k, it)]) = true := by
  induction l with
  | nil => simp [keysNodupB, containsKey]
  | cons p ps ih =>
    simp [containsKey, List.any_cons] at hc
    simp [keysNodupB] at hn
    simp [keysNodupB, containsKey_append, hn.2,
      ih hn.2 (by simpa [containsKey] using hc.2)]
    constructor
    · simpa [containsKey] using hn.1
    · simp [containsKey, Ne.symm hc.1]

theorem keysNodupB_eraseKey {l : List (String × CacheItem)} (k : String)
    (hn : keysNodupB l = true) : keysNodupB (eraseKey l k) = true := by
  induction l with
  | nil => rfl
  | cons p ps ih =>
    simp [keysNodupB] at hn
    by_cases hk : p.1 = k
    · simpa [eraseKey, hk] using hn.2
    · have h1 : containsKey (eraseKey ps k) p.1 = false := by
        by_cases hpk : p.1 = k
        · exact absurd hpk hk
        · rw [containsKey_eraseKey_of_ne hpk]
          simpa using hn.1
      simp [eraseKey, hk, keysNodupB, h1, ih hn.2]

theorem not_contains_eraseKey_self {l : List (String × CacheItem)}
    {k : String} (hn : keysNodupB l = true) :
    containsKey (eraseKey l k) k = false := by
  induction l with
  | nil => rfl
  | cons p ps ih =>
    simp [keysNodupB] at hn
    by_cases hk : p.1 = k
    · subst hk
      simpa [eraseKey] using hn.1
    · have hb : (p.1 == k) = false := beq_eq_false_iff_ne.mpr hk
      simp only [eraseKey, hb, Bool.false_eq_true, if_false]
      simp only [containsKey, List.any_cons, hb, Bool.false_or]
      simpa [containsKey] using ih hn.2

theorem ne_of_mem_eraseKey {l : List (String × CacheItem)} {k : String}
    {q : String × CacheItem} (hn : keysNodupB l = true)
    (h : q ∈ eraseKey l k) : q.1 ≠ k := by
  intro hq
  have : containsKey (eraseKey l k) k = true := by
    have := contains_of_mem (show (q.1, q.2) ∈ eraseKey l k by simpa using h)
    simpa [hq] using this
  rw [not_contains_eraseKey_self hn] at this
  cases this

theorem keysNodupB_middle {l₁ l₂ : List (String × CacheItem)}
    {p : String × CacheItem} (hn : keysNodupB (l₁ ++ p :: l₂) = true) :
    keysNodupB (l₁ ++ l₂) = true ∧ containsKey (l₁ ++ l₂) p.1 = false := by
  induction l₁ with
  | nil =>
    simp [keysNodupB] at hn
    exact ⟨hn.2, by simpa [containsKey] using hn.1⟩
  | cons q qs ih =>
    simp [keysNodupB] at hn
    have hq := hn.1
    rcases ih hn.2 with ⟨h1, h2⟩
    rw [containsKey_append] at hq
    simp [containsKey, List.any_cons] at hq
    constructor
    · simp [keysNodupB, h1, containsKey_append]
      constructor
      · simpa [containsKey] using hq.1
      · simpa [containsKey] using hq.2.2
    · simp [containsKey, List.any_cons]
      refine ⟨fun h => hq.2.1 h.symm, ?_⟩
      simpa [containsKey, containsKey_append] using h2

theorem ne_of_mem_middle {l₁ l₂ : List (String × CacheItem)}
    {p q : String × CacheItem} (hn : keysNodupB (l₁ ++ p :: l₂) = true)
    (h : q ∈ l₁ ++ l₂) : q.1 ≠ p.1 := by
  intro hq
  have h1 := contains_of_mem (show (q.1, q.2) ∈ l₁ ++ l₂ by simpa using h)
  rw [hq, (keysNodupB_middle hn).2] at h1
  cases h1

theorem contains_middle_of_ne {l₁ l₂ : List (String × CacheItem)}
    {p : String × CacheItem} {k : String} (hk : k ≠ p.1) :
    containsKey (l₁ ++ l₂) k = containsKey (l₁ ++ p :: l₂) k := by
  have hb : (p.1 == k) = false := beq_eq_false_iff_ne.mpr (Ne.symm hk)
  simp [containsKey_append, containsKey, List.any_cons, hb]

/-! ### Timer-list lemmas -/

theorem timerAt_lt_length {ts : List Timer} {h : Nat} {tm : Timer}
    (ht : timerAt ts h = some tm) : h < ts.length := by
  induction ts generalizing h with
  | nil => cases ht
  | cons t rest ih =>
    cases h with
    | zero => simp
    | succ n =>
      simp only [timerAt] at ht
      simpa using ih ht

theorem timerAt_mem {ts : List Timer} {h : Nat} {tm : Timer}
    (ht : timerAt ts h = some tm) : tm ∈ ts := by
  induction ts generalizing h with
  | nil => cases ht
  | cons t rest ih =>
    cases h with
    | zero =>
      simp [timerAt] at ht
      exact ht ▸ List.mem_cons_self _ _
    | succ n =>
      simp only [timerAt] at ht
      exact List.mem_cons_of_mem _ (ih ht)

theorem timerAt_append_left {ts ts' : List Timer} {h : Nat}
    (hl : h < ts.length) : timerAt (ts ++ ts') h = timerAt ts h := by
  induction ts generalizing h with
  | nil => simp at hl
  | cons t rest ih =>
    cases h with
    | zero => rfl
    | succ n =>
      simp only [List.cons_append, timerAt]
      exact ih (by simpa using hl)

theorem timerAt_append_length (ts : List Timer) (tm : Timer) :
    timerAt (ts ++ [tm]) ts.length = some tm := by
  induction ts with
  | nil => rfl
  | cons t rest ih => simpa [timerAt] using ih

theorem setCancelled_length (ts : List Timer) (h : Nat) :
    (setCancelled ts h).length = ts.length := by
  induction ts generalizing h with
  | nil => rfl
  | cons t rest ih =>
    cases h with
    | zero => rfl
    | succ n => simp [setCancelled, ih]

theorem setFired_length (ts : List Timer) (h : Nat) :
    (setFired ts h).length = ts.length := by
  induction ts generalizing h with
  | nil => rfl
  | cons t rest ih =>
    cases h with
    | zero => rfl
    | succ n => simp [setFired, ih]

theorem setCancelledOpt_length (ts : List Timer) (o : Option Nat) :
    (setCancelledOpt ts o).length = ts.length := by
  cases o with
  | none => rfl
  | some h => simp [setCancelledOpt, setCancelled_length]

theorem timerAt_setCancelled_ne {ts : List Timer} {h h' : Nat}
    (hne : h' ≠ h) : timerAt (setCancelled ts h) h' = timerAt ts h' := by
  induction ts generalizing h h' with
  | nil => rfl
  | cons t rest ih =>
    cases h with
    | zero =>
      cases h' with
      | zero => exact absurd rfl hne
      | succ n => rfl
    | succ m =>
      cases h' with
      | zero => rfl
      | succ n =>
        simp only [setCancelled, timerAt]
        exact ih (fun he => hne (by simp [he]))

theorem timerAt_setCancelled_self {ts : List Timer} {h : Nat} {tm : Timer}
    (ht : timerAt ts h = some tm) :
    timerAt (setCancelled ts h) h = some { tm with cancelled := true } := by
  induction ts generalizing h with
  | nil => cases ht
  | cons t rest ih =>
    cases h with
    | zero =>
      simp [timerAt] at ht
      simp [setCancelled, timerAt, ht]
    | succ n =>
      simp only [timerAt] at ht
      simpa [setCancelled, timerAt] using ih ht

theorem timerAt_setFired_ne {ts : List Timer} {h h' : Nat}
    (hne : h' ≠ h) : timerAt (setFired ts h) h' = timerAt ts h' := by
  induction ts generalizing h h' with
  | nil => rfl
  | cons t rest ih =>
    cases h with
    | zero =>
      cases h' with
      | zero => exact absurd rfl hne
      | succ n => rfl
    | succ m =>
      cases h' with
      | zero => rfl
      | succ n =>
        simp only [setFired, timerAt]
        exact ih (fun he => hne (by simp [he]))

theorem timerAt_setFired_self {ts : List Timer} {h : Nat} {tm : Timer}
    (ht : timerAt ts h = some tm) :
    timerAt (setFired ts h) h = some { tm with fired := true } := by
  induction ts generalizing h with
  | nil => cases ht
  | cons t rest ih =>
    cases h with
    | zero =>
      simp [timerAt] at ht
      simp [setFired, timerAt, ht]
    | succ n =>
      simp only [timerAt] at ht
      simpa [setFired, timerAt] using ih ht

theorem setCancelled_append_length (ts : List Timer) (tm : Timer) :
    setCancelled (ts ++ [tm]) ts.length = ts ++ [{ tm with cancelled := true }] := by
  induction ts with
  | nil => rfl
  | cons t rest ih => simpa [setCancelled] using ih

/-! ### Live-timer counting -/

theorem liveTimersFor_append (ts ts' : List Timer) (k : String) :
    liveTimersFor (ts ++ ts') k = liveTimersFor ts k + liveTimersFor ts' k := by
  induction ts with
  | nil => simp [liveTimersFor]
  | cons t rest ih => simp [liveTimersFor, ih]; omega

theorem liveTimersFor_fresh (f : Nat) (k0 k : String) :
    liveTimersFor [⟨f, k0, false, false⟩] k = if k0 == k then 1 else 0 := by
  simp [liveTimersFor, Timer.live]

theorem liveTimersFor_setCancelled {ts : List Timer} {h : Nat} {tm : Timer}
    (ht : timerAt ts h = some tm) (k : String) :
    liveTimersFor ts k =
      liveTimersFor (setCancelled ts h) k +
        (if tm.live && tm.key == k then 1 else 0) := by
  induction ts generalizing h with
  | nil => cases ht
  | cons t rest ih =>
    cases h with
    | zero =>
      simp [timerAt] at ht
      subst ht
      simp [setCancelled, liveTimersFor, Timer.live]
      omega
    | succ n =>
      simp only [timerAt] at ht
      simp only [setCancelled, liveTimersFor]
      rw [ih ht]
      omega

theorem liveTimersFor_setFired {ts : List Timer} {h : Nat} {tm : Timer}
    (ht : timerAt ts h = some tm) (k : String) :
    liveTimersFor ts k =
      liveTimersFor (setFired ts h) k +
        (if tm.live && tm.key == k then 1 else 0) := by
  induction ts generalizing h with
  | nil => cases ht
  | cons t rest ih =>
    cases h with
    | zero =>
      simp [timerAt] at ht
      subst ht
      simp [setFired, liveTimersFor, Timer.live]
      omega
    | succ n =>
      simp only [timerAt] at ht
      simp only [setFired, liveTimersFor]
      rw [ih ht]
      omega

theorem liveTimersFor_pos {ts : List Timer} {k : String} :
    0 < liveTimersFor ts k ↔ ∃ tm ∈ ts, tm.live = true ∧ tm.key = k := by
  induction ts with
  | nil => simp [liveTimersFor]
  | cons t rest ih =>
    simp only [liveTimersFor]
    constructor
    · intro h
      by_cases hc : (t.live && t.key == k) = true
      · simp [Bool.and_eq_true, beq_iff_eq] at hc
        exact ⟨t, List.mem_cons_self _ _, hc.1, hc.2⟩
      · simp [hc] at h
        rcases ih.mp h with ⟨tm, h1, h2⟩
        exact ⟨tm, List.mem_cons_of_mem _ h1, h2⟩
    · rintro ⟨tm, hmem, hlive, hkey⟩
      rcases List.mem_cons.mp hmem with h1 | h1
      · subst h1
        simp [hlive, hkey]
      · have := ih.mpr ⟨tm, h1, hlive, hkey⟩
        omega

theorem popLast_append (l : List (String × CacheItem)) (p : String × CacheItem) :
    popLast (l ++ [p]) = some (l, p) := by
  induction l with
  | nil => rfl
  | cons q qs ih =>
    cases qs with
    | nil => rfl
    | cons r rs =>
      simp only [List.cons_append] at ih ⊢
      simp [popLast, ih]

theorem popLast_eq_some {l init : List (String × CacheItem)}
    {p : String × CacheItem} (h : popLast l = some (init, p)) :
    l = init ++ [p] := by
  induction l generalizing init with
  | nil => cases h
  | cons q qs ih =>
    cases qs with
    | nil =>
      simp [popLast] at h
      simp [h.1, h.2]
    | cons r rs =>
      simp only [popLast, Option.map_eq_some'] at h
      rcases h with ⟨⟨i2, p2⟩, h1, h2⟩
      simp only [Prod.mk.injEq] at h2
      have hp2 : popLast (r :: rs) = some (i2, p) := by rw [h1, h2.2]
      have hrec := ih hp2
      rw [← h2.1]
      simpa using hrec

/-! ### Normal forms of the cache operations -/

theorem get_miss {c : LRUTimeoutCache} {k : String}
    (h : lookupItem c.cache k = Option.none) :
    c.get_item k = (c, PyVal.none) := by
  simp [LRUTimeoutCache.get_item, h]

theorem get_hit {c : LRUTimeoutCache} {k : String} {it : CacheItem}
    (hn : keysNodupB c.cache = true) (hl : lookupItem c.cache k = some it) :
    c.get_item k =
      ({ c with
          loop := { c.loop with
            timers := setCancelledOpt c.loop.timers it.timer ++
              [⟨c.loop.now + c.timeout, k, false, false⟩] },
          cache := eraseKey c.cache k ++
            [(k, { it with timer := some c.loop.timers.length })] },
       it.data) := by
  have hnc : containsKey (eraseKey c.cache k) k = false :=
    not_contains_eraseKey_self hn
  have hme : moveToEnd c.cache k = eraseKey c.cache k ++ [(k, it)] := by
    simp [moveToEnd, hl]
  cases hit : it.timer with
  | none =>
    simp only [LRUTimeoutCache.get_item, hl, LRUTimeoutCache.update_timer, hit,
      EventLoop.callLater, hme, setCancelledOpt,
      setEntry_append_not_contains _ _ hnc]
  | some h =>
    simp only [LRUTimeoutCache.get_item, hl, LRUTimeoutCache.update_timer, hit,
      EventLoop.cancel, EventLoop.callLater, hme, setCancelledOpt,
      setCancelled_length, setEntry_append_not_contains _ _ hnc]

theorem put_fresh_no_evict {c : LRUTimeoutCache} {k : String} {v : PyVal}
    (hnc : containsKey c.cache k = false)
    (hsz : ¬((c.cache.length + 1 : Int) > c.maxSize)) :
    c.put_item k v =
      ({ c with
          loop := { c.loop with
            timers := c.loop.timers ++ [⟨c.loop.now + c.timeout, k, false, false⟩] },
          cache := c.cache ++ [(k, ⟨some c.loop.timers.length, v⟩)] },
       PyVal.none) := by
  have hl : lookupItem c.cache k = Option.none := lookup_eq_none_of_not_contains hnc
  have her : eraseKey c.cache k = c.cache := eraseKey_of_not_contains hnc
  simp only [LRUTimeoutCache.put_item, hl, LRUTimeoutCache.update_timer,
    EventLoop.callLater, put_cache_normal, her, List.length_append,
    List.length_cons, List.length_nil]
  rw [if_neg (by simpa using hsz)]

theorem put_fresh_evict {c : LRUTimeoutCache} {k : String} {v : PyVal}
    {p : String × CacheItem} {rest : List (String × CacheItem)}
    (hnc : containsKey c.cache k = false)
    (hsz : (c.cache.length + 1 : Int) > c.maxSize)
    (hsh : c.cache ++ [(k, (⟨some c.loop.timers.length, v⟩ : CacheItem))] =
      p :: rest) :
    c.put_item k v =
      ({ c with
          loop := { c.loop with
            timers := setCancelledOpt
              (c.loop.timers ++ [⟨c.loop.now + c.timeout, k, false, false⟩])
              p.2.timer },
          cache := rest },
       p.2.data) := by
  have hl : lookupItem c.cache k = Option.none := lookup_eq_none_of_not_contains hnc
  have her : eraseKey c.cache k = c.cache := eraseKey_of_not_contains hnc
  simp only [LRUTimeoutCache.put_item, hl, LRUTimeoutCache.update_timer,
    EventLoop.callLater, put_cache_normal, her]
  rw [hsh]
  rw [if_pos (by
    have : (p :: rest).length = c.cache.length + 1 := by
      rw [← hsh]
      simp
    rw [this]
    simpa using hsz)]
  simp [cancelOpt]

theorem put_existing_no_evict {c : LRUTimeoutCache} {k : String} {v : PyVal}
    {ex : CacheItem} (hl : lookupItem c.cache k = some ex)
    (hsz : ¬((c.cache.length : Int) > c.maxSize)) :
    c.put_item k v =
      ({ c with
          loop := { c.loop with
            timers := setCancelledOpt c.loop.timers ex.timer ++
              [⟨c.loop.now + c.timeout, k, false, false⟩] },
          cache := eraseKey c.cache k ++ [(k, ⟨some c.loop.timers.length, v⟩)] },
       PyVal.none) := by
  have hc : containsKey c.cache k = true := contains_of_lookup hl
  have hlen : (eraseKey c.cache k).length + 1 = c.cache.length :=
    length_eraseKey_of_contains hc
  simp only [LRUTimeoutCache.put_item, hl, LRUTimeoutCache.update_timer,
    EventLoop.callLater, put_cache_normal, cancelOpt, setCancelledOpt_length,
    List.length_append, List.length_cons, List.length_nil]
  rw [if_neg (by omega)]

theorem put_existing_evict {c : LRUTimeoutCache} {k : String} {v : PyVal}
    {ex : CacheItem} {p : String × CacheItem}
    {rest : List (String × CacheItem)}
    (hl : lookupItem c.cache k = some ex)
    (hsz : (c.cache.length : Int) > c.maxSize)
    (hsh : eraseKey c.cache k ++
      [(k, (⟨some c.loop.timers.length, v⟩ : CacheItem))] = p :: rest) :
    c.put_item k v =
      ({ c with
          loop := { c.loop with
            timers := setCancelledOpt
              (setCancelledOpt c.loop.timers ex.timer ++
                [⟨c.loop.now + c.timeout, k, false, false⟩])
              p.2.timer },
          cache := rest },
       p.2.data) := by
  have hc : containsKey c.cache k = true := contains_of_lookup hl
  have hlen : (eraseKey c.cache k).length + 1 = c.cache.length :=
    length_eraseKey_of_contains hc
  simp only [LRUTimeoutCache.put_item, hl, LRUTimeoutCache.update_timer,
    EventLoop.callLater, put_cache_normal, cancelOpt, setCancelledOpt_length]
  rw [hsh]
  rw [if_pos (by
    have : (p :: rest).length = c.cache.length := by
      rw [← hsh]
      simp
      omega
    rw [this]
    exact hsz)]

theorem pop_empty {c : LRUTimeoutCache} (h : c.cache = []) :
    c.pop_item = Option.none := by
  simp [LRUTimeoutCache.pop_item, h, popLast]

theorem pop_nonempty {c : LRUTimeoutCache} {init : List (String × CacheItem)}
    {p : String × CacheItem} (hsh : c.cache = init ++ [p]) :
    c.pop_item =
      some ({ c with loop := cancelOpt c.loop p.2.timer, cache := init },
        p.2.data) := by
  simp [LRUTimeoutCache.pop_item, hsh, popLast_append]

theorem delete_present {c : LRUTimeoutCache} {k : String}
    (h : containsKey c.cache k = true) :
    c.delete_outdated k = some { c with cache := eraseKey c.cache k } := by
  simp [LRUTimeoutCache.delete_outdated, h]

theorem delete_absent {c : LRUTimeoutCache} {k : String}
    (h : containsKey c.cache k = false) :
    c.delete_outdated k = Option.none := by
  simp [LRUTimeoutCache.delete_outdated, h]

theorem containsKey_singleton (k0 k : String) (it : CacheItem) :
    containsKey [(k0, it)] k = (k0 == k) := by
  simp [containsKey]

/-! ### Entry-consistency transport -/

theorem entryOkB_iff {ts : List Timer} {k : String} {it : CacheItem} :
    entryOkB ts k it = true ↔
      ∃ h tm, it.timer = some h ∧ timerAt ts h = some tm ∧
        tm.live = true ∧ tm.key = k := by
  cases hit : it.timer with
  | none => simp [entryOkB, hit]
  | some h =>
    cases hta : timerAt ts h with
    | none => simp [entryOkB, hit, hta]
    | some tm =>
      simp [entryOkB, hit, hta, Bool.and_eq_true, beq_iff_eq]

theorem entryOk_append {ts ts' : List Timer} {k : String} {it : CacheItem}
    (h : entryOkB ts k it = true) : entryOkB (ts ++ ts') k it = true := by
  rcases entryOkB_iff.mp h with ⟨h0, tm, h1, h2, h3, h4⟩
  exact entryOkB_iff.mpr
    ⟨h0, tm, h1, by rw [timerAt_append_left (timerAt_lt_length h2)]; exact h2,
     h3, h4⟩

theorem entryOk_setCancelled_ne_key {ts : List Timer} {h : Nat} {tm0 : Timer}
    {k : String} {it : CacheItem} (he : entryOkB ts k it = true)
    (ht : timerAt ts h = some tm0) (hk : tm0.key ≠ k) :
    entryOkB (setCancelled ts h) k it = true := by
  rcases entryOkB_iff.mp he with ⟨h0, tm, h1, h2, h3, h4⟩
  have hne : h0 ≠ h := by
    intro heq
    rw [heq, ht] at h2
    cases h2
    exact hk h4
  exact entryOkB_iff.mpr ⟨h0, tm, h1, by rw [timerAt_setCancelled_ne hne]; exact h2, h3, h4⟩

theorem entryOk_setFired_ne_key {ts : List Timer} {h : Nat} {tm0 : Timer}
    {k : String} {it : CacheItem} (he : entryOkB ts k it = true)
    (ht : timerAt ts h = some tm0) (hk : tm0.key ≠ k) :
    entryOkB (setFired ts h) k it = true := by
  rcases entryOkB_iff.mp he with ⟨h0, tm, h1, h2, h3, h4⟩
  have hne : h0 ≠ h := by
    intro heq
    rw [heq, ht] at h2
    cases h2
    exact hk h4
  exact entryOkB_iff.mpr ⟨h0, tm, h1, by rw [timerAt_setFired_ne hne]; exact h2, h3, h4⟩

theorem entryOk_new (ts : List Timer) (f : Nat) (k : String) (w : PyVal) :
    entryOkB (ts ++ [⟨f, k, false, false⟩]) k ⟨some ts.length, w⟩ = true :=
  entryOkB_iff.mpr
    ⟨ts.length, ⟨f, k, false, false⟩, rfl, timerAt_append_length ts _,
     by simp [Timer.live], rfl⟩

/-! ### Invariant preservation -/

theorem inv_remove_mid {c : LRUTimeoutCache} {l₁ l₂ : List (String × CacheItem)}
    {p : String × CacheItem} (hInv : CacheInv c)
    (hsh : c.cache = l₁ ++ p :: l₂) :
    CacheInv { c with loop := cancelOpt c.loop p.2.timer, cache := l₁ ++ l₂ } := by
  obtain ⟨hn, hent, hcnt⟩ := hInv
  rw [hsh] at hn hent hcnt
  have hpmem : p ∈ l₁ ++ p :: l₂ := by simp
  rcases entryOkB_iff.mp (hent p hpmem) with ⟨h0, tm0, hpt, hta, hlive, hkey⟩
  have hts : setCancelledOpt c.loop.timers p.2.timer =
      setCancelled c.loop.timers h0 := by rw [hpt]; rfl
  refine ⟨?_, ?_, ?_⟩
  · exact (keysNodupB_middle hn).1
  · intro q hq
    have hq0 : q ∈ l₁ ++ p :: l₂ := by
      rcases List.mem_append.mp hq with h1 | h1
      · exact List.mem_append.mpr (Or.inl h1)
      · exact List.mem_append.mpr (Or.inr (List.mem_cons_of_mem _ h1))
    have hqk : q.1 ≠ p.1 := ne_of_mem_middle hn hq
    show entryOkB (setCancelledOpt c.loop.timers p.2.timer) q.1 q.2 = true
    rw [hts]
    exact entryOk_setCancelled_ne_key (hent q hq0) hta (hkey ▸ hqk.symm)
  · intro k
    show liveTimersFor (setCancelledOpt c.loop.timers p.2.timer) k =
      if containsKey (l₁ ++ l₂) k then 1 else 0
    rw [hts]
    by_cases hk : k = p.1
    · rw [hk, (keysNodupB_middle hn).2]
      have heq := liveTimersFor_setCancelled hta p.1
      have h1 : containsKey (l₁ ++ p :: l₂) p.1 = true :=
        contains_of_mem (show (p.1, p.2) ∈ l₁ ++ p :: l₂ from hpmem)
      have h2 : liveTimersFor c.loop.timers p.1 = 1 := by
        rw [hcnt p.1, if_pos h1]
      have h3 : (if tm0.live && tm0.key == p.1 then 1 else 0) = 1 := by
        simp [hlive, hkey]
      simp only [Bool.false_eq_true, if_false]
      omega
    · have heq := liveTimersFor_setCancelled hta k
      have h1 : (if tm0.live && tm0.key == k then 1 else 0) = 0 := by
        have : (tm0.key == k) = false :=
          beq_eq_false_iff_ne.mpr (hkey ▸ fun he => hk he.symm)
        simp [this]
      have h2 : containsKey (l₁ ++ l₂) k = containsKey (l₁ ++ p :: l₂) k :=
        contains_middle_of_ne hk
      rw [h2, ← hcnt k]
      omega

theorem inv_insert_fresh {c : LRUTimeoutCache} {k : String} (f : Nat) (w : PyVal)
    (hInv : CacheInv c) (hnc : containsKey c.cache k = false) :
    CacheInv { c with
      loop := { c.loop with
        timers := c.loop.timers ++ [⟨f, k, false, false⟩] },
      cache := c.cache ++ [(k, ⟨some c.loop.timers.length, w⟩)] } := by
  obtain ⟨hn, hent, hcnt⟩ := hInv
  refine ⟨?_, ?_, ?_⟩
  · exact keysNodupB_append_singleton _ hn hnc
  · intro q hq
    rcases List.mem_append.mp hq with h1 | h1
    · exact entryOk_append (hent q h1)
    · simp at h1
      rw [h1]
      exact entryOk_new c.loop.timers f k w
  · intro k'
    show liveTimersFor (c.loop.timers ++ [⟨f, k, false, false⟩]) k' = _
    rw [liveTimersFor_append, liveTimersFor_fresh, containsKey_append,
      containsKey_singleton]
    by_cases hk : k = k'
    · subst hk
      rw [hcnt k, hnc]
      simp
    · have hb : (k == k') = false := beq_eq_false_iff_ne.mpr hk
      rw [hb, hcnt k']
      simp

theorem inv_insert_existing {c : LRUTimeoutCache} {k : String} {ex : CacheItem}
    (w : PyVal) (hInv : CacheInv c) (hl : lookupItem c.cache k = some ex) :
    CacheInv { c with
      loop := { c.loop with
        timers := setCancelledOpt c.loop.timers ex.timer ++
          [⟨c.loop.now + c.timeout, k, false, false⟩] },
      cache := eraseKey c.cache k ++ [(k, ⟨some c.loop.timers.length, w⟩)] } := by
  obtain ⟨hn, hent, hcnt⟩ := hInv
  have hmem : (k, ex) ∈ c.cache := mem_of_lookup hl
  have hcon : containsKey c.cache k = true := contains_of_lookup hl
  rcases entryOkB_iff.mp (hent (k, ex) hmem) with ⟨h0, tm0, hpt, hta, hlive, hkey⟩
  have hts : setCancelledOpt c.loop.timers ex.timer =
      setCancelled c.loop.timers h0 := by
    show setCancelledOpt c.loop.timers (k, ex).2.timer = _
    rw [show (k, ex).2.timer = some h0 from hpt]
    rfl
  have hlen : (setCancelledOpt c.loop.timers ex.timer).length =
      c.loop.timers.length := setCancelledOpt_length _ _
  refine ⟨?_, ?_, ?_⟩
  · exact keysNodupB_append_singleton _ (keysNodupB_eraseKey _ hn)
      (not_contains_eraseKey_self hn)
  · intro q hq
    rcases List.mem_append.mp hq with h1 | h1
    · have hq0 : q ∈ c.cache := mem_of_mem_eraseKey h1
      have hqk : q.1 ≠ k := ne_of_mem_eraseKey hn h1
      show entryOkB _ q.1 q.2 = true
      rw [hts]
      exact entryOk_append
        (entryOk_setCancelled_ne_key (hent q hq0) hta (hkey ▸ hqk.symm))
    · simp at h1
      rw [h1]
      show entryOkB _ k ⟨some c.loop.timers.length, w⟩ = true
      rw [hts]
      have := entryOk_new (setCancelled c.loop.timers h0)
        (c.loop.now + c.timeout) k w
      rwa [setCancelled_length] at this
  · intro k'
    show liveTimersFor (setCancelledOpt c.loop.timers ex.timer ++
      [⟨c.loop.now + c.timeout, k, false, false⟩]) k' = _
    rw [liveTimersFor_append, liveTimersFor_fresh, hts, containsKey_append,
      containsKey_singleton]
    have heq := liveTimersFor_setCancelled hta k'
    by_cases hk : k = k'
    · subst hk
      have h1 : liveTimersFor c.loop.timers k = 1 := by rw [hcnt k, if_pos hcon]
      have h2 : (if tm0.live && tm0.key == k then 1 else 0) = 1 := by
        simp [hlive, hkey]
      rw [not_contains_eraseKey_self hn]
      simp only [Bool.false_or, beq_self_eq_true, if_true]
      omega
    · have h1 : (if tm0.live && tm0.key == k' then 1 else 0) = 0 := by
        have : (tm0.key == k') = false :=
          beq_eq_false_iff_ne.mpr (hkey ▸ hk)
        simp [this]
      have hb : (k == k') = false := beq_eq_false_iff_ne.mpr hk
      have h2 : containsKey (eraseKey c.cache k) k' = containsKey c.cache k' :=
        containsKey_eraseKey_of_ne (fun he => hk he.symm)
      rw [hb, h2]
      simp only [Bool.or_false, Bool.false_eq_true, if_false, Nat.add_zero]
      rw [← hcnt k']
      omega

theorem inv_put {c : LRUTimeoutCache} (k : String) (v : PyVal)
    (hInv : CacheInv c) : CacheInv (c.put_item k v).1 := by
  cases hl : lookupItem c.cache k with
  | none =>
    have hnc : containsKey c.cache k = false := by
      by_cases h : containsKey c.cache k = true
      · rcases exists_lookup_of_contains h with ⟨it, hit⟩
        rw [hit] at hl
        cases hl
      · simpa using h
    by_cases hsz : ((c.cache.length + 1 : Int) > c.maxSize)
    · cases hdec : c.cache ++
        [((k : String), (⟨some c.loop.timers.length, v⟩ : CacheItem))] with
      | nil => exact absurd hdec (by simp)
      | cons p rest =>
        rw [put_fresh_evict hnc hsz hdec]
        have hI := inv_insert_fresh (c.loop.now + c.timeout) v hInv hnc
        have hR := inv_remove_mid hI
          (show _ = [] ++ p :: rest by simpa using hdec)
        simpa using hR
    · rw [put_fresh_no_evict hnc hsz]
      exact inv_insert_fresh (c.loop.now + c.timeout) v hInv hnc
  | some ex =>
    by_cases hsz : ((c.cache.length : Int) > c.maxSize)
    · cases hdec : eraseKey c.cache k ++
        [((k : String), (⟨some c.loop.timers.length, v⟩ : CacheItem))] with
      | nil => exact absurd hdec (by simp)
      | cons p rest =>
        rw [put_existing_evict hl hsz hdec]
        have hI := inv_insert_existing v hInv hl
        have hR := inv_remove_mid hI
          (show _ = [] ++ p :: rest by simpa using hdec)
        simpa using hR
    · rw [put_existing_no_evict hl hsz]
      exact inv_insert_existing v hInv hl

theorem inv_get {c : LRUTimeoutCache} (k : String) (hInv : CacheInv c) :
    CacheInv (c.get_item k).1 := by
  cases hl : lookupItem c.cache k with
  | none =>
    rw [get_miss hl]
    exact hInv
  | some it =>
    rw [get_hit hInv.1 hl]
    exact inv_insert_existing it.data hInv hl

theorem inv_pop {c : LRUTimeoutCache} (hInv : CacheInv c) :
    CacheInv (applyOp c CacheOp.popOp) := by
  show CacheInv (match c.pop_item with | some r => r.1 | Option.none => c)
  cases hpl : popLast c.cache with
  | none =>
    have hp : c.pop_item = Option.none := by
      simp [LRUTimeoutCache.pop_item, hpl]
    rw [hp]
    exact hInv
  | some pr =>
    obtain ⟨init, p⟩ := pr
    have hsh : c.cache = init ++ [p] := popLast_eq_some hpl
    rw [pop_nonempty hsh]
    have hR := inv_remove_mid hInv (show c.cache = init ++ p :: [] from hsh)
    simpa using hR

theorem dueIdx_sound {t : Nat} {ts : List Timer} {i : Nat} {tm : Timer}
    (h : dueIdx t ts = some (i, tm)) :
    timerAt ts i = some tm ∧ tm.live = true ∧ tm.fireTime ≤ t := by
  induction ts generalizing i tm with
  | nil => cases h
  | cons tm0 rest ih =>
    by_cases hc : (tm0.live && decide (tm0.fireTime ≤ t)) = true
    · rw [show dueIdx t (tm0 :: rest) =
          (match (dueIdx t rest).map (fun p => (p.1 + 1, p.2)) with
           | some p => if p.2.fireTime < tm0.fireTime then some p
             else some (0, tm0)
           | Option.none => some (0, tm0)) by
          simp only [dueIdx, hc, if_true]] at h
      have hc2 := hc
      rw [Bool.and_eq_true] at hc2
      obtain ⟨hlive0, hdue0⟩ := hc2
      cases hrec : dueIdx t rest with
      | none =>
        rw [hrec] at h
        simp at h
        rw [← h.1, ← h.2]
        exact ⟨rfl, hlive0, of_decide_eq_true hdue0⟩
      | some pr =>
        obtain ⟨j, tmj⟩ := pr
        rw [hrec] at h
        simp only [Option.map_some'] at h
        by_cases hlt : tmj.fireTime < tm0.fireTime
        · rw [if_pos hlt] at h
          simp at h
          obtain ⟨hj, htm⟩ := h
          obtain ⟨ha, hb, hcc⟩ := ih hrec
          subst htm
          rw [← hj]
          exact ⟨by simpa [timerAt] using ha, hb, hcc⟩
        · rw [if_neg hlt] at h
          simp at h
          rw [← h.1, ← h.2]
          exact ⟨rfl, hlive0, of_decide_eq_true hdue0⟩
    · rw [show dueIdx t (tm0 :: rest) =
          (dueIdx t rest).map (fun p => (p.1 + 1, p.2)) by
          simp [dueIdx, hc]] at h
      cases hrec : dueIdx t rest with
      | none =>
        rw [hrec] at h
        cases h
      | some pr =>
        obtain ⟨j, tmj⟩ := pr
        rw [hrec] at h
        simp at h
        obtain ⟨ha, hb, hcc⟩ := ih hrec
        rw [← h.1, ← h.2]
        exact ⟨by simpa [timerAt] using ha, hb, hcc⟩

theorem inv_fire_step {c : LRUTimeoutCache} {i : Nat} {tm : Timer}
    (hInv : CacheInv c) (hta : timerAt c.loop.timers i = some tm)
    (hlive : tm.live = true) :
    containsKey c.cache tm.key = true ∧
    CacheInv { c with
      loop := { c.loop with timers := setFired c.loop.timers i },
      cache := eraseKey c.cache tm.key } := by
  obtain ⟨hn, hent, hcnt⟩ := hInv
  have hpos : 0 < liveTimersFor c.loop.timers tm.key :=
    liveTimersFor_pos.mpr ⟨tm, timerAt_mem hta, hlive, rfl⟩
  have hcon : containsKey c.cache tm.key = true := by
    by_cases h : containsKey c.cache tm.key = true
    · exact h
    · rw [hcnt tm.key, if_neg h] at hpos
      omega
  have hone : liveTimersFor c.loop.timers tm.key = 1 := by
    rw [hcnt tm.key, if_pos hcon]
  refine ⟨hcon, keysNodupB_eraseKey _ hn, ?_, ?_⟩
  · intro q hq
    have hq0 : q ∈ c.cache := mem_of_mem_eraseKey hq
    have hqk : q.1 ≠ tm.key := ne_of_mem_eraseKey hn hq
    exact entryOk_setFired_ne_key (hent q hq0) hta (Ne.symm hqk)
  · intro k'
    show liveTimersFor (setFired c.loop.timers i) k' =
      if containsKey (eraseKey c.cache tm.key) k' then 1 else 0
    have heq := liveTimersFor_setFired hta k'
    by_cases hk : k' = tm.key
    · rw [hk, not_contains_eraseKey_self hn]
      have heq2 := liveTimersFor_setFired hta tm.key
      have h2 : (if tm.live && tm.key == tm.key then 1 else 0) = 1 := by
        simp [hlive]
      simp only [Bool.false_eq_true, if_false]
      omega
    · have h1 : (if tm.live && tm.key == k' then 1 else 0) = 0 := by
        have : (tm.key == k') = false :=
          beq_eq_false_iff_ne.mpr (fun he => hk he.symm)
        simp [this]
      rw [containsKey_eraseKey_of_ne hk, ← hcnt k']
      omega

theorem inv_runDue : ∀ (fuel : Nat) (c : LRUTimeoutCache) (t : Nat),
    CacheInv c → CacheInv (runDue fuel c t)
  | 0, _, _, hInv => hInv
  | fuel + 1, c, t, hInv => by
    show CacheInv (runDue (fuel + 1) c t)
    cases hdue : dueIdx t c.loop.timers with
    | none =>
      rw [show runDue (fuel + 1) c t = c by simp only [runDue, hdue]]
      exact hInv
    | some pr =>
      obtain ⟨i, tm⟩ := pr
      obtain ⟨hta, hlive, _⟩ := dueIdx_sound hdue
      obtain ⟨hcon, hI2⟩ := inv_fire_step hInv hta hlive
      have hdel : ({ c with
          loop := { c.loop with timers := setFired c.loop.timers i }
          : LRUTimeoutCache }).delete_outdated tm.key =
          some { c with
            loop := { c.loop with timers := setFired c.loop.timers i },
            cache := eraseKey c.cache tm.key } :=
        delete_present hcon
      rw [show runDue (fuel + 1) c t =
          runDue fuel { c with
            loop := { c.loop with timers := setFired c.loop.timers i },
            cache := eraseKey c.cache tm.key } t by
        simp only [runDue, hdue, hdel]]
      exact inv_runDue fuel _ t hI2

theorem inv_advance {c : LRUTimeoutCache} (t : Nat) (hInv : CacheInv c) :
    CacheInv (advanceTo c t) := by
  obtain ⟨hn, hent, hcnt⟩ := inv_runDue c.loop.timers.length c t hInv
  exact ⟨hn, hent, hcnt⟩

theorem inv_applyOp {c : LRUTimeoutCache} (op : CacheOp) (hInv : CacheInv c) :
    CacheInv (applyOp c op) := by
  cases op with
  | putOp k v => exact inv_put k v hInv
  | getOp k => exact inv_get k hInv
  | popOp => exact inv_pop hInv
  | advOp t => exact inv_advance t hInv

theorem inv_applyOps {c : LRUTimeoutCache} (ops : List CacheOp)
    (hInv : CacheInv c) : CacheInv (applyOps c ops) := by
  induction ops generalizing c with
  | nil => exact hInv
  | cons op rest ih => exact ih (inv_applyOp op hInv)

theorem inv_mkCache (m : Int) (T : Nat) : CacheInv (mkCache m T) := by
  refine ⟨rfl, ?_, ?_⟩
  · intro p hp
    cases hp
  · intro k
    simp [mkCache, liveTimersFor, containsKey]

/-- Every state reachable by a sequence of interactions from a fresh
cache is well formed: keys are distinct, every entry owns a live timer
for its own key, and every key has exactly one live timer iff present. -/
theorem inv_reachable (m : Int) (T : Nat) (ops : List CacheOp) :
    CacheInv (reachCache m T ops) :=
  inv_applyOps ops (inv_mkCache m T)

theorem length_eraseKey_le (l : List (String × CacheItem)) (k : String) :
    (eraseKey l k).length ≤ l.length := by
  induction l with
  | nil => simp [eraseKey]
  | cons p ps ih =>
    by_cases hk : p.1 = k
    · simp [eraseKey, hk]
    · simp [eraseKey, hk]
      omega

theorem maxSize_put (c : LRUTimeoutCache) (k : String) (v : PyVal) :
    (c.put_item k v).1.maxSize = c.maxSize := by
  unfold LRUTimeoutCache.put_item LRUTimeoutCache.update_timer
  cases lookupItem c.cache k <;> dsimp only <;> split <;>
    first
    | rfl
    | (split <;> rfl)

theorem maxSize_get (c : LRUTimeoutCache) (k : String) :
    (c.get_item k).1.maxSize = c.maxSize := by
  unfold LRUTimeoutCache.get_item LRUTimeoutCache.update_timer
  cases lookupItem c.cache k <;> rfl

theorem maxSize_runDue : ∀ (fuel : Nat) (c : LRUTimeoutCache) (t : Nat),
    (runDue fuel c t).maxSize = c.maxSize
  | 0, _, _ => rfl
  | fuel + 1, c, t => by
    show (runDue (fuel + 1) c t).maxSize = c.maxSize
    cases hdue : dueIdx t c.loop.timers with
    | none => rw [show runDue (fuel + 1) c t = c by simp only [runDue, hdue]]
    | some pr =>
      obtain ⟨i, tm⟩ := pr
      by_cases hcon : containsKey c.cache tm.key = true
      · have hdel : ({ c with
            loop := { c.loop with timers := setFired c.loop.timers i }
            : LRUTimeoutCache }).delete_outdated tm.key =
            some { c with
              loop := { c.loop with timers := setFired c.loop.timers i },
              cache := eraseKey c.cache tm.key } :=
          delete_present hcon
        rw [show runDue (fuel + 1) c t =
            runDue fuel { c with
              loop := { c.loop with timers := setFired c.loop.timers i },
              cache := eraseKey c.cache tm.key } t by
          simp only [runDue, hdue, hdel]]
        exact maxSize_runDue fuel _ t
      · have hcon2 : containsKey c.cache tm.key = false := by
          simpa using hcon
        have hdel : ({ c with
            loop := { c.loop with timers := setFired c.loop.timers i }
            : LRUTimeoutCache }).delete_outdated tm.key = Option.none :=
          delete_absent hcon2
        rw [show runDue (fuel + 1) c t =
            runDue fuel { c with
              loop := { c.loop with timers := setFired c.loop.timers i } } t by
          simp only [runDue, hdue, hdel]]
        exact maxSize_runDue fuel _ t

theorem maxSize_applyOp (c : LRUTimeoutCache) (op : CacheOp) :
    (applyOp c op).maxSize = c.maxSize := by
  cases op with
  | putOp k v => exact maxSize_put c k v
  | getOp k => exact maxSize_get c k
  | popOp =>
    show (match c.pop_item with
      | some r => r.1
      | Option.none => c).maxSize = c.maxSize
    unfold LRUTimeoutCache.pop_item
    cases popLast c.cache with
    | none => rfl
    | some pr => rfl
  | advOp t =>
    show (advanceTo c t).maxSize = c.maxSize
    unfold advanceTo
    exact maxSize_runDue _ c t

theorem maxSize_applyOps (c : LRUTimeoutCache) (ops : List CacheOp) :
    (applyOps c ops).maxSize = c.maxSize := by
  induction ops generalizing c with
  | nil => rfl
  | cons op rest ih =>
    show (applyOps (applyOp c op) rest).maxSize = c.maxSize
    rw [ih, maxSize_applyOp]

theorem maxSize_reachCache (m : Int) (T : Nat) (ops : List CacheOp) :
    (reachCache m T ops).maxSize = m :=
  maxSize_applyOps (mkCache m T) ops

theorem length_runDue_le : ∀ (fuel : Nat) (c : LRUTimeoutCache) (t : Nat),
    (runDue fuel c t).cache.length ≤ c.cache.length
  | 0, _, _ => le_refl _
  | fuel + 1, c, t => by
    show (runDue (fuel + 1) c t).cache.length ≤ c.cache.length
    cases hdue : dueIdx t c.loop.timers with
    | none =>
      rw [show runDue (fuel + 1) c t = c by simp only [runDue, hdue]]
    | some pr =>
      obtain ⟨i, tm⟩ := pr
      by_cases hcon : containsKey c.cache tm.key = true
      · have hdel : ({ c with
            loop := { c.loop with timers := setFired c.loop.timers i }
            : LRUTimeoutCache }).delete_outdated tm.key =
            some { c with
              loop := { c.loop with timers := setFired c.loop.timers i },
              cache := eraseKey c.cache tm.key } :=
          delete_present hcon
        rw [show runDue (fuel + 1) c t =
            runDue fuel { c with
              loop := { c.loop with timers := setFired c.loop.timers i },
              cache := eraseKey c.cache tm.key } t by
          simp only [runDue, hdue, hdel]]
        have h1 := length_runDue_le fuel { c with
          loop := { c.loop with timers := setFired c.loop.timers i },
          cache := eraseKey c.cache tm.key } t
        have h2 := length_eraseKey_le c.cache tm.key
        exact le_trans h1 h2
      · have hcon2 : containsKey c.cache tm.key = false := by simpa using hcon
        have hdel : ({ c with
            loop := { c.loop with timers := setFired c.loop.timers i }
            : LRUTimeoutCache }).delete_outdated tm.key = Option.none :=
          delete_absent hcon2
        rw [show runDue (fuel + 1) c t =
            runDue fuel { c with
              loop := { c.loop with timers := setFired c.loop.timers i } } t by
          simp only [runDue, hdue, hdel]]
        exact length_runDue_le fuel _ t

theorem size_applyOp {c : LRUTimeoutCache} (op : CacheOp)
    (hInv : CacheInv c) (hsz : (c.cache.length : Int) ≤ c.maxSize) :
    ((applyOp c op).cache.length : Int) ≤ c.maxSize := by
  cases op with
  | putOp k v =>
    show (((c.put_item k v).1.cache.length : Int) ≤ c.maxSize)
    cases hl : lookupItem c.cache k with
    | none =>
      have hnc : containsKey c.cache k = false := by
        by_cases h : containsKey c.cache k = true
        · rcases exists_lookup_of_contains h with ⟨it, hit⟩
          rw [hit] at hl
          cases hl
        · simpa using h
      by_cases hcond : ((c.cache.length + 1 : Int) > c.maxSize)
      · cases hdec : c.cache ++
          [((k : String), (⟨some c.loop.timers.length, v⟩ : CacheItem))] with
        | nil => exact absurd hdec (by simp)
        | cons p rest =>
          rw [put_fresh_evict hnc hcond hdec]
          have : c.cache.length + 1 = rest.length + 1 := by
            have := congrArg List.length hdec
            simpa using this
          show ((rest.length : Int) ≤ c.maxSize)
          omega
      · rw [put_fresh_no_evict hnc hcond]
        show (((c.cache ++ [(k, (⟨some c.loop.timers.length, v⟩ : CacheItem))]).length : Int) ≤ c.maxSize)
        simp only [List.length_append, List.length_cons, List.length_nil]
        push_cast
        omega
    | some ex =>
      by_cases hcond : ((c.cache.length : Int) > c.maxSize)
      · omega
      · rw [put_existing_no_evict hl hcond]
        have hc : containsKey c.cache k = true := contains_of_lookup hl
        have hlen : (eraseKey c.cache k).length + 1 = c.cache.length :=
          length_eraseKey_of_contains hc
        show (((eraseKey c.cache k ++ [(k, (⟨some c.loop.timers.length, v⟩ : CacheItem))]).length : Int) ≤ c.maxSize)
        simp only [List.length_append, List.length_cons, List.length_nil]
        push_cast
        omega
  | getOp k =>
    show (((c.get_item k).1.cache.length : Int) ≤ c.maxSize)
    cases hl : lookupItem c.cache k with
    | none =>
      rw [get_miss hl]
      exact hsz
    | some it =>
      rw [get_hit hInv.1 hl]
      have hc : containsKey c.cache k = true := contains_of_lookup hl
      have hlen : (eraseKey c.cache k).length + 1 = c.cache.length :=
        length_eraseKey_of_contains hc
      show (((eraseKey c.cache k ++ [(k, { it with timer := some c.loop.timers.length })]).length : Int) ≤ c.maxSize)
      simp only [List.length_append, List.length_cons, List.length_nil]
      push_cast
      omega
  | popOp =>
    show ((match c.pop_item with
      | some r => r.1
      | Option.none => c).cache.length : Int) ≤ c.maxSize
    cases hpl : popLast c.cache with
    | none =>
      have hp : c.pop_item = Option.none := by
        simp [LRUTimeoutCache.pop_item, hpl]
      rw [hp]
      exact hsz
    | some pr =>
      obtain ⟨init, p⟩ := pr
      have hsh : c.cache = init ++ [p] := popLast_eq_some hpl
      rw [pop_nonempty hsh]
      show ((init.length : Int) ≤ c.maxSize)
      have : c.cache.length = init.length + 1 := by rw [hsh]; simp
      omega
  | advOp t =>
    show (((advanceTo c t).cache.length : Int) ≤ c.maxSize)
    have h1 : (advanceTo c t).cache.length ≤ c.cache.length := by
      unfold advanceTo
      exact length_runDue_le _ c t
    omega

theorem size_applyOps {c : LRUTimeoutCache} (ops : List CacheOp)
    (hInv : CacheInv c) (hsz : (c.cache.length : Int) ≤ c.maxSize) :
    ((applyOps c ops).cache.length : Int) ≤ c.maxSize := by
  induction ops generalizing c with
  | nil => exact hsz
  | cons op rest ih =>
    show (((applyOps (applyOp c op) rest).cache.length : Int) ≤ c.maxSize)
    have h1 := ih (inv_applyOp op hInv)
      (by rw [maxSize_applyOp]; exact size_applyOp op hInv hsz)
    rwa [maxSize_applyOp] at h1

/-- Along any interaction sequence, a cache built with a nonnegative
capacity never holds more entries than its capacity. -/
theorem size_reachCache (m : Int) (T : Nat) (ops : List CacheOp)
    (hm : 0 ≤ m) : ((reachCache m T ops).cache.length : Int) ≤ m := by
  have h0 : ((mkCache m T).cache.length : Int) ≤ (mkCache m T).maxSize := by
    simpa [mkCache] using hm
  exact size_applyOps ops (inv_mkCache m T) h0

/-! ### Degenerate capacity (maxSize ≤ 0) -/

theorem put_empty_evict {c : LRUTimeoutCache} (k : String) (v : PyVal)
    (hc : c.cache = []) (hm : c.maxSize ≤ 0) :
    c.put_item k v =
      ({ c with
          loop := { c.loop with
            timers := c.loop.timers ++ [⟨c.loop.now + c.timeout, k, true, false⟩] },
          cache := [] },
       v) := by
  have hnc : containsKey c.cache k = false := by rw [hc]; rfl
  have hsz : ((c.cache.length + 1 : Int) > c.maxSize) := by
    rw [hc]
    simp
    omega
  have hdec : c.cache ++
      [((k : String), (⟨some c.loop.timers.length, v⟩ : CacheItem))] =
      (k, (⟨some c.loop.timers.length, v⟩ : CacheItem)) :: [] := by
    rw [hc]
    rfl
  rw [put_fresh_evict hnc hsz hdec]
  have hset : setCancelledOpt
      (c.loop.timers ++ [⟨c.loop.now + c.timeout, k, false, false⟩])
      ((k, (⟨some c.loop.timers.length, v⟩ : CacheItem)).2.timer) =
      c.loop.timers ++ [⟨c.loop.now + c.timeout, k, true, false⟩] := by
    show setCancelled
      (c.loop.timers ++ [⟨c.loop.now + c.timeout, k, false, false⟩])
      c.loop.timers.length = _
    rw [setCancelled_append_length]
  rw [hset]

theorem empty_applyOp {c : LRUTimeoutCache} (op : CacheOp)
    (hm : c.maxSize ≤ 0) (hc : c.cache = []) :
    (applyOp c op).cache = [] := by
  cases op with
  | putOp k v =>
    show (c.put_item k v).1.cache = []
    rw [put_empty_evict k v hc hm]
  | getOp k =>
    show (c.get_item k).1.cache = []
    have hl : lookupItem c.cache k = Option.none := by rw [hc]; rfl
    rw [get_miss hl]
    exact hc
  | popOp =>
    show (match c.pop_item with
      | some r => r.1
      | Option.none => c).cache = []
    rw [pop_empty hc]
    exact hc
  | advOp t =>
    show (advanceTo c t).cache = []
    unfold advanceTo
    have main : ∀ (fuel : Nat) (d : LRUTimeoutCache), d.cache = [] →
        (runDue fuel d t).cache = [] := by
      intro fuel
      induction fuel with
      | zero => intro d hd; exact hd
      | succ n ih =>
        intro d hd
        cases hdue : dueIdx t d.loop.timers with
        | none =>
          rw [show runDue (n + 1) d t = d by simp only [runDue, hdue]]
          exact hd
        | some pr =>
          obtain ⟨i, tm⟩ := pr
          have hcon : containsKey d.cache tm.key = false := by rw [hd]; rfl
          have hdel : ({ d with
              loop := { d.loop with timers := setFired d.loop.timers i }
              : LRUTimeoutCache }).delete_outdated tm.key = Option.none :=
            delete_absent hcon
          rw [show runDue (n + 1) d t =
              runDue n { d with
                loop := { d.loop with timers := setFired d.loop.timers i } } t by
            simp only [runDue, hdue, hdel]]
          exact ih _ hd
    exact main _ c hc

theorem empty_applyOps {c : LRUTimeoutCache} (ops : List CacheOp)
    (hm : c.maxSize ≤ 0) (hc : c.cache = []) :
    (applyOps c ops).cache = [] := by
  induction ops generalizing c with
  | nil => exact hc
  | cons op rest ih =>
    show (applyOps (applyOp c op) rest).cache = []
    have hm2 : (applyOp c op).maxSize ≤ 0 := by rw [maxSize_applyOp]; exact hm
    exact ih hm2 (empty_applyOp op hm hc)

/-- With `maxSize ≤ 0` (including `maxSize = 0`), the cache is empty at
every reachable state. -/
theorem empty_reachCache (m : Int) (T : Nat) (ops : List CacheOp)
    (hm : m ≤ 0) : (reachCache m T ops).cache = [] :=
  empty_applyOps ops hm rfl

/-! ### Helpers for the idle-reset and timer-discipline claims -/

theorem lookupItem_append_self {l : List (String × CacheItem)} {k : String}
    (it : CacheItem) (h : containsKey l k = false) :
    lookupItem (l ++ [(k, it)]) k = some it := by
  induction l with
  | nil => simp [lookupItem]
  | cons p ps ih =>
    simp [containsKey, List.any_cons] at h
    simp [lookupItem, h.1, ih (by simpa [containsKey] using h.2)]

theorem size_le_of_contains (m : Int) (T : Nat) (ops : List CacheOp)
    (k : String) (hk : containsKey (reachCache m T ops).cache k = true) :
    ((reachCache m T ops).cache.length : Int) ≤ m := by
  by_cases hm : 0 ≤ m
  · exact size_reachCache m T ops hm
  · exfalso
    have he := empty_reachCache m T ops (by omega)
    rw [he] at hk
    cases hk

/-- C8 (divergence witness): when the expiry callback
`_delete_outdated` fires for a key that is not in the cache (here: any
key on a fresh cache), the body `del self.cache[key]` raises `KeyError`
(modelled as `Option.none`) instead of being the guarded no-op that the
specification requires. -/
theorem delete_outdated_raises :
    (mkCache 2 50).delete_outdated "A" = Option.none := by
  decide

/-- C9 counterexample: `get_all` on a cache holding one entry returns
the internal ordered dict whose value is the full entry record — it
carries the scheduled-expiry handle (`timer := some 0`), i.e. internal
lifecycle metadata, not just the stored value. -/
theorem get_all_counterexample :
    ((mkCache 5 10).put_item "K" (PyVal.str "v")).1.get_all =
      [("K", ⟨some 0, PyVal.str "v"⟩)] ∧
    (⟨some 0, PyVal.str "v"⟩ : CacheItem).timer ≠ Option.none := by
  decide

/-- C9 amended: `get_all` returns the cache's internal ordered mapping
itself, whose values are the full entry records (timer handle plus
data); the stored value that `get_item` would return is the record's
`data` field. -/
theorem get_all_amended :
    (∀ c : LRUTimeoutCache, c.get_all = c.cache) ∧
    (∀ (c : LRUTimeoutCache) (k : String) (it : CacheItem),
      lookupItem c.get_all k = some it → (c.get_item k).2 = it.data) := by
  refine ⟨fun c => rfl, ?_⟩
  intro c k it hl
  have hl' : lookupItem c.cache k = some it := hl
  simp [LRUTimeoutCache.get_item, hl', LRUTimeoutCache.update_timer]

theorem get_all_amended_witness :
    ((((mkCache 5 10).put_item "K" (PyVal.str "v")).1).get_item "K").2 =
      PyVal.str "v" :=
  get_all_amended.2 (((mkCache 5 10).put_item "K" (PyVal.str "v")).1) "K"
    ⟨some 0, PyVal.str "v"⟩ (by decide)

/-- C3 counterexample: Python `None` is itself storable; after
`put("K", None)` the key is present, yet `get("K")` returns `None` —
exactly the absent signal, so the absent signal is not distinguishable
from every storable value. -/
theorem miss_signal_counterexample :
    (((mkCache 5 10).put_item "K" PyVal.none).1.get_item "K").2 =
      PyVal.none ∧
    ((mkCache 5 10).put_item "K" PyVal.none).1.has_item "K" = true ∧
    (((mkCache 5 10).put_item "K" PyVal.none).1.get_item "Z").2 =
      PyVal.none := by
  decide

/-- C3 amended: `get_item` returns the same absent signal `None` on a
never-inserted key and on an expired key; but the signal is not
distinguishable from every storable value, because `None` can be stored
and a hit on such an entry also returns `None`. -/
theorem miss_signal_amended :
    (∀ (c : LRUTimeoutCache) (k : String), containsKey c.cache k = false →
      (c.get_item k).2 = PyVal.none) ∧
    ((advanceTo ((mkCache 5 10).put_item "E" (PyVal.str "e")).1 10).get_item
      "E").2 = PyVal.none ∧
    (((mkCache 5 10).put_item "K" PyVal.none).1.get_item "K").2 =
      PyVal.none := by
  refine ⟨?_, by decide, by decide⟩
  intro c k h
  rw [get_miss (lookup_eq_none_of_not_contains h)]

theorem miss_signal_amended_witness :
    (((mkCache 5 10).get_item "Q").2 = PyVal.none) :=
  miss_signal_amended.1 (mkCache 5 10) "Q" (by decide)

/-- C6: at any reachable state, a `put` for a key already present
replaces its value, leaves the entry count unchanged, triggers no
capacity eviction (it returns the no-eviction result `None`), and the
newly written entry is still present afterwards — it is never the
eviction target of its own `put` call. -/
theorem reput_no_eviction (m : Int) (T : Nat) (ops : List CacheOp)
    (k : String) (v : PyVal)
    (hk : containsKey (reachCache m T ops).cache k = true) :
    ((reachCache m T ops).put_item k v).2 = PyVal.none ∧
    ((reachCache m T ops).put_item k v).1.cache.length =
      (reachCache m T ops).cache.length ∧
    (lookupItem ((reachCache m T ops).put_item k v).1.cache k).map
      CacheItem.data = some v ∧
    containsKey ((reachCache m T ops).put_item k v).1.cache k = true := by
  rcases exists_lookup_of_contains hk with ⟨it, hl⟩
  have hsz := size_le_of_contains m T ops k hk
  have hm : (reachCache m T ops).maxSize = m := maxSize_reachCache m T ops
  have hlen : (eraseKey (reachCache m T ops).cache k).length + 1 =
      (reachCache m T ops).cache.length :=
    length_eraseKey_of_contains hk
  have hn : keysNodupB (reachCache m T ops).cache = true :=
    (inv_reachable m T ops).1
  rw [put_existing_no_evict hl (by omega)]
  refine ⟨rfl, ?_, ?_, ?_⟩
  · show (eraseKey (reachCache m T ops).cache k ++
      [(k, (⟨some (reachCache m T ops).loop.timers.length, v⟩ : CacheItem))]).length = _
    simp only [List.length_append, List.length_cons, List.length_nil]
    omega
  · show (lookupItem (eraseKey (reachCache m T ops).cache k ++
      [(k, (⟨some (reachCache m T ops).loop.timers.length, v⟩ : CacheItem))]) k).map
      CacheItem.data = some v
    rw [lookupItem_append_self _ (not_contains_eraseKey_self hn)]
    rfl
  · show containsKey (eraseKey (reachCache m T ops).cache k ++
      [(k, (⟨some (reachCache m T ops).loop.timers.length, v⟩ : CacheItem))]) k = true
    rw [containsKey_append, containsKey_singleton]
    simp

theorem reput_no_eviction_witness :
    ((reachCache 3 10 [CacheOp.putOp "A" (PyVal.str "a")]).put_item "A"
      (PyVal.int 7)).2 = PyVal.none :=
  (reput_no_eviction 3 10 [CacheOp.putOp "A" (PyVal.str "a")] "A"
    (PyVal.int 7) (by decide)).1

